import Mathlib

/-!
Verification of the directory-to-metadata/filename derivation engines of
`image_description_writer` (files `writer.py` and `renamer.py`).

Strings are modelled as `List Char` (Python `str` indexing and slicing is by
code point, as is `List Char`).  Python `None` for a missing return value or a
missing metadata field is modelled by `Option`.  The external effects the
engines request (exiftool `set_field`, `os.rename`) are recorded as an explicit
list of `Effect`s; a dry run records no effect, exactly as the source only
guards the mutating call with `if not self.dry_run`.

Each branch of a per-file operation is additionally tagged with a `Reason`;
the reasons correspond one-to-one to the distinct `logger.debug` messages of
the source, so they are observable behaviour, not an invention of the model.
-/

set_option autoImplicit false

/-! ### Basic string helpers (Python semantics, on `List Char`) -/

/-- Python `s.split(sep)` for a one-character separator: never drops empty
pieces, and `"".split(sep) == [""]`. -/
def splitOnChar (sep : Char) : List Char → List (List Char)
  | [] => [[]]
  | c :: rest =>
      if c = sep then [] :: splitOnChar sep rest
      else
        match splitOnChar sep rest with
        | [] => [[c]]
        | t :: ts => (c :: t) :: ts

/-- Python `sep.join(parts)` for a one-character separator. -/
def joinWith (sep : Char) : List (List Char) → List Char
  | [] => []
  | [x] => x
  | x :: y :: rest => x ++ sep :: joinWith sep (y :: rest)

/-- Python substring containment `needle in hay`. -/
def listContains (needle : List Char) : List Char → Bool
  | [] => needle.isEmpty
  | c :: rest => needle.isPrefixOf (c :: rest) || listContains needle rest

/-- The ASCII uppercase-to-lowercase table. -/
def lowerTable : List (Char × Char) :=
  [('A','a'), ('B','b'), ('C','c'), ('D','d'), ('E','e'), ('F','f'), ('G','g'),
   ('H','h'), ('I','i'), ('J','j'), ('K','k'), ('L','l'), ('M','m'), ('N','n'),
   ('O','o'), ('P','p'), ('Q','q'), ('R','r'), ('S','s'), ('T','t'), ('U','u'),
   ('V','v'), ('W','w'), ('X','x'), ('Y','y'), ('Z','z')]

/-- Python `str.lower` restricted to ASCII, which is all the source ever
lowercases (file extensions and the character class `[a-zA-Z0-9_\- ]`). -/
def pyLowerChar (c : Char) : Char :=
  match lowerTable.find? (fun q => q.1 = c) with
  | some q => q.2
  | none => c

/-- Python truthiness of an `Optional[str]`: `None` and `""` are falsy. -/
def pyFalsy : Option (List Char) → Bool
  | none => true
  | some d => d.isEmpty

/-! ### `os.path.split` / `os.path.splitext` (posixpath semantics) -/

/-- The part of the path after the last `'/'` (the whole path if there is
none): the `tail` of posixpath `split`. -/
def afterLastSep (l : List Char) : List Char :=
  (l.reverse.takeWhile (· != '/')).reverse

/-- The part of the path up to and including the last `'/'` (empty if there is
none): the raw `head` of posixpath `split`, before its rstrip. -/
def headWithSep (l : List Char) : List Char :=
  (l.reverse.dropWhile (· != '/')).reverse

/-- `os.path.split`: the head keeps no trailing slashes unless it consists of
slashes only (posixpath: `if head and head != '/'*len(head): head =
head.rstrip('/')`). -/
def pySplit (l : List Char) : List Char × List Char :=
  if (headWithSep l).all (· == '/') then (headWithSep l, afterLastSep l)
  else (((headWithSep l).reverse.dropWhile (· == '/')).reverse, afterLastSep l)

/-- The characters after the last `'.'`, reversed; its length equals the whole
length exactly when there is no dot.  Mirrors `p.rfind(extsep)` of posixpath
`splitext`. -/
def extSearch (f : List Char) : List Char :=
  f.reverse.takeWhile (· != '.')

/-- The part before the last `'.'` (python `p[:dotIndex]`). -/
def extBase (f : List Char) : List Char :=
  (f.reverse.drop ((extSearch f).length + 1)).reverse

/-- `os.path.splitext` on a separator-free file name: split at the last dot
unless everything before that dot is dots (so `".bashrc"` has no extension).
The source only ever applies `os.path.splitext` either to the slash-free tail
of `os.path.split`, or takes component `[1]` of its value on a full path; for
component `[1]` posixpath's `dotIndex > sepIndex` test makes the value on a
full path equal to the value on the slash-free tail, which is how `extLower`
below uses it. -/
def pySplitext (f : List Char) : List Char × List Char :=
  if (extSearch f).length = f.length then (f, [])
  else if (extBase f).all (· == '.') then (f, [])
  else (extBase f, '.' :: (extSearch f).reverse)

/-- `os.path.splitext(p)[1].lower()` on a full path, as computed at
`writer.py:130`, `writer.py:166` and `renamer.py:134`. -/
def extLower (p : List Char) : List Char :=
  (pySplitext (afterLastSep p)).2.map pyLowerChar

/-! ### Shared result model -/

/-- A mutating call requested from the outside world: `set_field` via exiftool
(`writer.py:86`), or `os.rename` (`renamer.py:118`). -/
inductive Effect where
  | setField (path field value : List Char)
  | renameFile (oldPath newPath : List Char)
deriving DecidableEq

/-- Which branch of a per-file operation fired; each constructor corresponds
to one distinct log site of the source. -/
inductive Reason where
  | updated
  | alreadyWritten
  | foreignDescription
  | notEligible
  | removed
  | noMatchingPrefix
  | alreadyRenamed
  | ineligiblePattern
  | failedAttr
deriving DecidableEq

/-- Result of one per-file operation: the Python return value (`none` models
the implicit `None` of a branch with no `return`), the mutating calls issued,
and the branch that fired. -/
structure FileAction where
  code : Option Int
  writes : List Effect
  reason : Reason
deriving DecidableEq

/-- `DESC_KEY = 'Description'` (`writer.py:32`). -/
def DESC_KEY : List Char := "Description".data

/-! ### `ImageDescriptionWriter` (writer.py) -/

/-- Constructor arguments of `ImageDescriptionWriter` (`writer.py:37`); the
source's `prefix` / `existing_prefix` are named `pfx` / `existingPfx` here.
`existingPfx` already carries the `existing_prefix or prefix` default of
`writer.py:45`, and `directory.length` plays `self.root_dir_length`. -/
structure WriterCfg where
  directory : List Char
  pfx : List Char
  existingPfx : List Char
  force : Bool
  dry_run : Bool
deriving DecidableEq

namespace ImageDescriptionWriter

/-- `new_desc` of `writer.py:138-140`:
`trimmed_path = filepath[self.root_dir_length:]`,
`split_path = ' '.join(trimmed_path.split('/'))`,
`new_desc = f'{self.prefix} {split_path}'`. -/
def derivedDescription (cfg : WriterCfg) (filepath : List Char) : List Char :=
  cfg.pfx ++ ' ' :: joinWith ' ' (splitOnChar '/' (filepath.drop cfg.directory.length))

/-- `write_directory_structure` (`writer.py:120-163`).  `desc` is the value
`self.get_description(filepath)` returns (external read).  The guard mirrors
`if not desc or self.existing_prefix in desc or self.force` including its
short-circuit (`in` is never reached when `desc` is falsy, and on a falsy
`desc` the `getD []` argument is irrelevant to the disjunction's value).
The `alreadyWritten` and `notEligible` branches reach the end of the function
body without a `return`, hence `code := none` (Python returns `None`). -/
def write_directory_structure (cfg : WriterCfg) (filepath : List Char)
    (desc : Option (List Char)) : FileAction :=
  if extLower filepath = ".jpg".data then
    if pyFalsy desc || listContains cfg.existingPfx (desc.getD []) || cfg.force then
      if some (derivedDescription cfg filepath) ≠ desc then
        { code := some 0
          writes := if cfg.dry_run then []
                    else [Effect.setField filepath DESC_KEY (derivedDescription cfg filepath)]
          reason := Reason.updated }
      else
        { code := none, writes := [], reason := Reason.alreadyWritten }
    else
      { code := some 1, writes := [], reason := Reason.foreignDescription }
  else
    { code := none, writes := [], reason := Reason.notEligible }

/-- `clean_directory_metadata` (`writer.py:165-182`): the condition is
`if desc and self.existing_prefix in desc`, and `remove_description` is
`set_description(filepath, '')` (`writer.py:114-118`), i.e. `set_field` with
the empty string. -/
def clean_directory_metadata (cfg : WriterCfg) (filepath : List Char)
    (desc : Option (List Char)) : FileAction :=
  if extLower filepath = ".jpg".data then
    if !pyFalsy desc && listContains cfg.existingPfx (desc.getD []) then
      { code := some 0
        writes := if cfg.dry_run then [] else [Effect.setField filepath DESC_KEY []]
        reason := Reason.removed }
    else
      { code := some 1, writes := [], reason := Reason.noMatchingPrefix }
  else
    { code := some 1, writes := [], reason := Reason.notEligible }

end ImageDescriptionWriter

/-! ### `ImageRenamer` (renamer.py) -/

/-- Constructor arguments of `ImageRenamer` (`renamer.py:50-58`). -/
structure RenamerCfg where
  directory : List Char
  include_root : Bool
  dry_run : Bool
  all_files : Bool
deriving DecidableEq

namespace ImageRenamer

/-- The character class kept by `clean_dirname`'s `re.sub(r'[^a-zA-Z0-9_\- ]', '', ...)`. -/
def charAllowed (c : Char) : Bool :=
  c.isUpper || c.isLower || c.isDigit || c = '_' || c = '-' || c = ' '

/-- `clean_dirname` (`renamer.py:76-86`): strip everything outside
`[a-zA-Z0-9_\- ]`, lowercase, replace spaces with dashes. -/
def clean_dirname (d : List Char) : List Char :=
  ((d.filter charAllowed).map pyLowerChar).map (fun c => if c = ' ' then '-' else c)

/-- `any([re.match(r, filename_base) for r in REPLACEABLE_PATTERNS])`
(`renamer.py:36-41`, `renamer.py:99`): each pattern is a literal followed by
`.*` and `re.match` anchors at the start only, so a match object is truthy
exactly when the base name starts with the literal. -/
def matchesReplaceable (base : List Char) : Bool :=
  ['I','M','G','_'].isPrefixOf base || ['D','S','C','N'].isPrefixOf base ||
  ['8','3','9','A'].isPrefixOf base || ['M','V','I','_'].isPrefixOf base

/-- `get_path_components` (`renamer.py:63-74`): `os.path.split`, then
`os.path.splitext` of the (slash-free) file name, extension lowercased. -/
def get_path_components (file_path : List Char) : List Char × List Char × List Char :=
  ((pySplit file_path).1,
   (pySplitext (pySplit file_path).2).1,
   ((pySplitext (pySplit file_path).2).2).map pyLowerChar)

/-- `dir_string` of `renamer.py:98`. -/
def dir_string (p : List Char) : List Char := (get_path_components p).1

/-- `filename_base` of `renamer.py:98`. -/
def filename_base (p : List Char) : List Char := (get_path_components p).2.1

/-- `ext` of `renamer.py:98`. -/
def file_ext (p : List Char) : List Char := (get_path_components p).2.2

/-- `filename_dir_string` (`renamer.py:100-102`): the directory, with the
first `len(self.directory)` characters sliced off unless `include_root`. -/
def filename_dir_string (cfg : RenamerCfg) (p : List Char) : List Char :=
  if cfg.include_root then dir_string p
  else (dir_string p).drop cfg.directory.length

/-- `cleaned_dir_components` (`renamer.py:104-105`): clean each slash-split
component, keep the truthy (non-empty) ones. -/
def cleaned_dir_components (cfg : RenamerCfg) (p : List Char) : List (List Char) :=
  ((splitOnChar '/' (filename_dir_string cfg p)).map clean_dirname).filter
    (fun d => d.isEmpty = false)

/-- `new_filename_base = "_".join(cleaned_dir_components)` (`renamer.py:107`). -/
def new_filename_base (cfg : RenamerCfg) (p : List Char) : List Char :=
  joinWith '_' (cleaned_dir_components cfg p)

/-- `new_file_path = f"{dir_string}/{new_filename_base}_{filename_base}{ext}"`
(`renamer.py:113-114`). -/
def new_file_path (cfg : RenamerCfg) (p : List Char) : List Char :=
  dir_string p ++ '/' :: (new_filename_base cfg p ++ '_' :: (filename_base p ++ file_ext p))

/-- `write_directory_structure` (`renamer.py:88-131`).  Every live branch
returns 0 or 1; the trailing `return -1` of `renamer.py:131` is unreachable
(both the `if` and the `else` of the tried block return). -/
def write_directory_structure (cfg : RenamerCfg) (file_path : List Char) : FileAction :=
  if cfg.all_files || matchesReplaceable (filename_base file_path) then
    if (new_filename_base cfg file_path).isPrefixOf (filename_base file_path) then
      { code := some 1, writes := [], reason := Reason.alreadyRenamed }
    else
      { code := some 0
        writes := if cfg.dry_run then []
                  else [Effect.renameFile file_path (new_file_path cfg file_path)]
        reason := Reason.updated }
  else
    { code := some 1, writes := [], reason := Reason.ineligiblePattern }

/-- The attribute names an `ImageRenamer` instance resolves: the `__init__`
fields (`renamer.py:55-61`) and the methods of the class body.  There is no
`get_description`, `existing_prefix` or `remove_description`. -/
def instanceAttrNames : List (List Char) :=
  ["directory".data, "dry_run".data, "include_root".data, "all_files".data,
   "root_dir_length".data, "update_msg".data,
   "get_path_components".data, "clean_dirname".data,
   "write_directory_structure".data, "clean_directory_metadata".data,
   "execute_on_files".data, "write_metadata".data, "clean_metadata".data]

/-- `clean_directory_metadata` (`renamer.py:133-150`).  Inside the `try`, the
first expression is `self.get_description(filepath)`; the attribute lookup is
modelled against `instanceAttrNames`.  It fails (ImageRenamer defines no such
attribute), raising `AttributeError`, which the blanket `except Exception`
turns into `return -1` before any metadata is read or written.  The `some`
branch is unreachable; its value is irrelevant (the instance also lacks the
`existing_prefix` the body would need next). -/
def clean_directory_metadata (_cfg : RenamerCfg) (filepath : List Char) : FileAction :=
  if extLower filepath = ".jpg".data then
    match instanceAttrNames.find? (fun n => n = "get_description".data) with
    | some _ => { code := some 0, writes := [], reason := Reason.removed }
    | none => { code := some (-1), writes := [], reason := Reason.failedAttr }
  else
    { code := some 1, writes := [], reason := Reason.notEligible }

end ImageRenamer

/-! ### Batch driver (`execute_on_files`, `writer.py:185-199` / `renamer.py:153-169`) -/

/-- The external metadata state: field value per (path, field).  `none` is an
absent field (exiftool JSON `.get` returning nothing). -/
def Meta : Type := List Char → List Char → Option (List Char)

/-- Applying one requested mutation to the metadata state.  A rename does not
change any metadata field. -/
def applyEffect (st : Meta) : Effect → Meta
  | Effect.setField p f v => fun q g => if q = p ∧ g = f then some v else st q g
  | Effect.renameFile _ _ => st

def applyEffects (st : Meta) (es : List Effect) : Meta :=
  es.foldl applyEffect st

/-- `ALLOWED_EXT = ['.jpg']` (`writer.py:28-30`). -/
def ALLOWED_EXT : List (List Char) := [".jpg".data]

/-- The per-file return values of one write pass of the writer over a file
list, reading each file's `Description` field from the evolving metadata
state.  The source maps over the files with a worker pool whose per-file work
touches only that file's own metadata; the sequential model below agrees with
it file by file. -/
def writerBatchCodes (cfg : WriterCfg) : Meta → List (List Char) → List (Option Int)
  | _, [] => []
  | st, f :: fs =>
      (ImageDescriptionWriter.write_directory_structure cfg f (st f DESC_KEY)).code ::
        writerBatchCodes cfg
          (applyEffects st (ImageDescriptionWriter.write_directory_structure cfg f (st f DESC_KEY)).writes) fs

/-- `results.count(0)`, `results.count(1)`, `results.count(-1)`
(`writer.py:195-197`): the `RunSummary` triple (updated, skipped, failed).
A branch that returned `None` is counted by none of the three. -/
def countCodes (l : List (Option Int)) : Nat × Nat × Nat :=
  (l.count (some 0), l.count (some 1), l.count (some (-1)))

/-- One `write_metadata` run of the writer (`writer.py:185-202`): glob results
are filtered to `ALLOWED_EXT`, each file processed, results counted. -/
def writerSummary (cfg : WriterCfg) (st : Meta) (files : List (List Char)) :
    Nat × Nat × Nat :=
  countCodes (writerBatchCodes cfg st
    (files.filter (fun f => ALLOWED_EXT.contains (extLower f))))

/-- One `write_metadata` run of the renamer (`renamer.py:153-172`): no
extension filter (`renamer.py:155` is commented out), sequential map; the
per-file operation reads nothing from mutable state. -/
def renamerSummary (cfg : RenamerCfg) (files : List (List Char)) : Nat × Nat × Nat :=
  countCodes (files.map (fun f => (ImageRenamer.write_directory_structure cfg f).code))

/-! ### Concrete inputs used by the witnesses and counterexamples -/

/-- The CLI-default configuration rooted at `/lib`: `--prefix '[EXIF writer]'`,
no `--existing-prefix` (so it defaults to the prefix), no `-f`, no dry run. -/
def cfgLib : WriterCfg :=
  { directory := "/lib".data, pfx := "[EXIF writer]".data,
    existingPfx := "[EXIF writer]".data, force := false, dry_run := false }

/-- The spec's scenario file under root `/lib`. -/
def pathParis : List Char := "/lib/Trips/Paris 2023/IMG_001.jpg".data

/-- A renamer rooted at `/r` without `--all`. -/
def rcfgPatterns : RenamerCfg :=
  { directory := "/r".data, include_root := false, dry_run := false, all_files := false }

/-- A renamer rooted at `/r` with `--all`. -/
def rcfgAll : RenamerCfg :=
  { directory := "/r".data, include_root := false, dry_run := false, all_files := true }

/-- An empty metadata store: no file has any field set. -/
def emptyMeta : Meta := fun _ _ => none

/-! ### Character-class facts -/

/-- The ASCII uppercase letters. -/
def ucAlpha : List Char :=
  ['A','B','C','D','E','F','G','H','I','J','K','L','M',
   'N','O','P','Q','R','S','T','U','V','W','X','Y','Z']

/-- The ASCII lowercase letters. -/
def lcAlpha : List Char :=
  ['a','b','c','d','e','f','g','h','i','j','k','l','m',
   'n','o','p','q','r','s','t','u','v','w','x','y','z']

/-- Characters that can never occur in a cleaned directory token. -/
def badChars : List Char := '/' :: '.' :: ucAlpha

theorem pyLowerChar_self_or_lower (c : Char) :
    pyLowerChar c = c ∨ pyLowerChar c ∈ lcAlpha := by
  unfold pyLowerChar
  cases h : lowerTable.find? (fun q => q.1 = c) with
  | none => exact Or.inl rfl
  | some q =>
      have hm := List.mem_of_find?_eq_some h
      have hall : ∀ r ∈ lowerTable, r.2 ∈ lcAlpha := by decide
      exact Or.inr (hall q hm)

theorem pyLowerChar_not_upper (c : Char) : pyLowerChar c ∉ ucAlpha := by
  unfold pyLowerChar
  cases h : lowerTable.find? (fun q => q.1 = c) with
  | none =>
      intro hc
      have hall := List.find?_eq_none.mp h
      have hcov : ∀ u ∈ ucAlpha, ∃ r ∈ lowerTable, r.1 = u := by decide
      obtain ⟨r, hr, hr1⟩ := hcov c hc
      exact absurd (by simp [hr1]) (hall r hr)
  | some q =>
      have hm := List.mem_of_find?_eq_some h
      have hall : ∀ r ∈ lowerTable, r.2 ∉ ucAlpha := by decide
      exact hall q hm

theorem charAllowed_ne_sep {c : Char} (h : ImageRenamer.charAllowed c = true) : c ≠ '/' := by
  intro hc; subst hc; revert h; decide

theorem charAllowed_ne_dot {c : Char} (h : ImageRenamer.charAllowed c = true) : c ≠ '.' := by
  intro hc; subst hc; revert h; decide

/-- Every character of a cleaned directory token avoids `'/'`, `'.'` and the
uppercase letters. -/
theorem clean_dirname_chars {d : List Char} {c : Char}
    (h : c ∈ ImageRenamer.clean_dirname d) : c ∉ badChars := by
  unfold ImageRenamer.clean_dirname at h
  obtain ⟨b, hb, hbc⟩ := List.mem_map.mp h
  obtain ⟨a, ha, hab⟩ := List.mem_map.mp hb
  obtain ⟨-, hallow⟩ := List.mem_filter.mp ha
  subst hbc
  by_cases hsp : b = ' '
  · simp only [hsp, if_pos rfl]; decide
  · simp only [if_neg hsp]
    intro hmem
    have hnu := pyLowerChar_not_upper a
    rw [hab] at hnu
    rcases pyLowerChar_self_or_lower a with heq | hlc
    · have hba : b = a := by rw [← hab, heq]
      subst hba
      rcases List.mem_cons.mp hmem with h1 | hmem
      · exact charAllowed_ne_sep hallow h1
      rcases List.mem_cons.mp hmem with h1 | hmem
      · exact charAllowed_ne_dot hallow h1
      · exact hnu hmem
    · rw [hab] at hlc
      rcases List.mem_cons.mp hmem with h1 | hmem
      · rw [h1] at hlc; revert hlc; decide
      rcases List.mem_cons.mp hmem with h1 | hmem
      · rw [h1] at hlc; revert hlc; decide
      · exact hnu hmem

/-! ### List infrastructure -/

theorem isPrefixOf_iff {l₁ l₂ : List Char} : l₁.isPrefixOf l₂ = true ↔ l₁ <+: l₂ := by
  induction l₁ generalizing l₂ with
  | nil => simp [List.isPrefixOf, List.nil_prefix]
  | cons a as ih =>
      cases l₂ with
      | nil => simp [List.isPrefixOf]
      | cons b bs =>
          simp [List.isPrefixOf, List.cons_prefix_cons, ih, Bool.and_eq_true, beq_iff_eq]

theorem takeWhile_append_sep {p : Char → Bool} {l₁ l₂ : List Char} {s : Char}
    (h : ∀ a ∈ l₁, p a = true) (hs : p s = false) :
    (l₁ ++ s :: l₂).takeWhile p = l₁ := by
  induction l₁ with
  | nil => simp [List.takeWhile_cons, hs]
  | cons a as ih =>
      have ha : p a = true := h a (List.mem_cons_self a as)
      simp [List.takeWhile_cons, ha, ih (fun x hx => h x (List.mem_cons_of_mem a hx))]

theorem dropWhile_append_sep {p : Char → Bool} {l₁ l₂ : List Char} {s : Char}
    (h : ∀ a ∈ l₁, p a = true) (hs : p s = false) :
    (l₁ ++ s :: l₂).dropWhile p = s :: l₂ := by
  induction l₁ with
  | nil => simp [List.dropWhile_cons, hs]
  | cons a as ih =>
      have ha : p a = true := h a (List.mem_cons_self a as)
      simp [List.dropWhile_cons, ha, ih (fun x hx => h x (List.mem_cons_of_mem a hx))]

theorem afterLastSep_append {d f : List Char} (hf : '/' ∉ f) :
    afterLastSep (d ++ '/' :: f) = f := by
  unfold afterLastSep
  have hrev : (d ++ '/' :: f).reverse = f.reverse ++ '/' :: d.reverse := by
    simp
  rw [hrev, takeWhile_append_sep (fun a ha => ?_) (by decide), List.reverse_reverse]
  have : a ∈ f := List.mem_reverse.mp ha
  exact bne_iff_ne.mpr (fun hc => hf (hc ▸ this))

theorem headWithSep_append {d f : List Char} (hf : '/' ∉ f) :
    headWithSep (d ++ '/' :: f) = d ++ ['/'] := by
  unfold headWithSep
  have hrev : (d ++ '/' :: f).reverse = f.reverse ++ '/' :: d.reverse := by
    simp
  rw [hrev, dropWhile_append_sep (fun a ha => ?_) (by decide)]
  · simp
  have : a ∈ f := List.mem_reverse.mp ha
  exact bne_iff_ne.mpr (fun hc => hf (hc ▸ this))

/-- `os.path.split` of `d ++ "/" ++ f` recovers `(d, f)` whenever `f` is
slash-free and `d` is non-empty and without a trailing slash. -/
theorem pySplit_append {d f : List Char} (hd : d ≠ [])
    (hlast : d.getLast? ≠ some '/') (hf : '/' ∉ f) :
    pySplit (d ++ '/' :: f) = (d, f) := by
  unfold pySplit
  rw [headWithSep_append hf, afterLastSep_append hf]
  have hlastmem : d.getLast hd ∈ d := List.getLast_mem hd
  have hlastne : d.getLast hd ≠ '/' := by
    intro hc
    exact hlast (by rw [List.getLast?_eq_getLast d hd, hc])
  have hall : ¬ (d ++ ['/']).all (· == '/') = true := by
    intro hc
    exact hlastne (by
      have := (List.all_eq_true.mp hc) (d.getLast hd) (List.mem_append_left _ hlastmem)
      exact beq_iff_eq.mp this)
  rw [if_neg hall]
  have hdecomp : d = d.dropLast ++ [d.getLast hd] := (List.dropLast_append_getLast hd).symm
  have hrev : (d ++ ['/']).reverse = '/' :: d.getLast hd :: d.dropLast.reverse := by
    conv_lhs => rw [hdecomp]
    simp
  rw [hrev]
  simp only [List.dropWhile_cons]
  rw [if_pos (by decide), if_neg (by simp [hlastne])]
  have hback : (d.getLast hd :: d.dropLast.reverse).reverse = d.dropLast ++ [d.getLast hd] := by
    simp
  rw [hback, ← hdecomp]

/-- The two components of `os.path.splitext` concatenate back to the input. -/
theorem pySplitext_append (f : List Char) :
    (pySplitext f).1 ++ (pySplitext f).2 = f := by
  unfold pySplitext
  by_cases h1 : (extSearch f).length = f.length
  · simp [h1]
  rw [if_neg h1]
  have hdw : f.reverse.dropWhile (· != '.') ≠ [] := by
    intro hc
    apply h1
    have := List.takeWhile_append_dropWhile (· != '.') f.reverse
    rw [hc, List.append_nil] at this
    calc (extSearch f).length = f.reverse.length := by rw [extSearch, this]
      _ = f.length := by simp
  have hhd : ∀ c t, f.reverse.dropWhile (· != '.') = c :: t → c = '.' := by
    intro c t hct
    have := List.head?_dropWhile_not (· != '.') f.reverse
    rw [hct] at this
    simp only [List.head?_cons] at this
    simpa using this
  obtain ⟨c, t, hct⟩ : ∃ c t, f.reverse.dropWhile (· != '.') = c :: t := by
    cases hco : f.reverse.dropWhile (· != '.') with
    | nil => exact absurd hco hdw
    | cons c t => exact ⟨c, t, rfl⟩
  have hcdot : c = '.' := hhd c t hct
  subst hcdot
  have hfrev : f.reverse = extSearch f ++ '.' :: t := by
    rw [extSearch, ← hct, List.takeWhile_append_dropWhile]
  have hbase : extBase f = t.reverse := by
    unfold extBase
    rw [hfrev]
    have : extSearch f ++ '.' :: t = (extSearch f ++ ['.']) ++ t := by simp
    rw [this]
    have hlen : (extSearch f).length + 1 = (extSearch f ++ ['.']).length := by simp
    rw [hlen, List.drop_left]
  by_cases h2 : (extBase f).all (· == '.')
  · simp [h2]
  rw [if_neg h2]
  simp only []
  rw [hbase]
  have : t.reverse ++ '.' :: (extSearch f).reverse = (extSearch f ++ '.' :: t).reverse := by
    simp
  rw [this, ← hfrev, List.reverse_reverse]

/-- The extension component is empty or starts with a dot. -/
theorem pySplitext_snd (f : List Char) :
    (pySplitext f).2 = [] ∨ ∃ t, (pySplitext f).2 = '.' :: t := by
  unfold pySplitext
  by_cases h1 : (extSearch f).length = f.length
  · simp [h1]
  by_cases h2 : (extBase f).all (· == '.')
  · simp [h1, h2]
  · simp [h1, h2]

theorem afterLastSep_no_slash (l : List Char) : '/' ∉ afterLastSep l := by
  unfold afterLastSep
  intro h
  have h1 := List.mem_reverse.mp h
  have h2 := List.mem_takeWhile_imp h1
  simp at h2

/-! ### `splitOnChar` / `joinWith` facts -/

theorem splitOnChar_ne_nil (sep : Char) (l : List Char) : splitOnChar sep l ≠ [] := by
  induction l with
  | nil => simp [splitOnChar]
  | cons c rest ih =>
      unfold splitOnChar
      by_cases h : c = sep
      · simp [h]
      · simp only [if_neg h]
        cases hsp : splitOnChar sep rest with
        | nil => simp
        | cons t ts => simp

theorem mem_splitOnChar_subset {sep : Char} {l x : List Char}
    (hx : x ∈ splitOnChar sep l) {c : Char} (hc : c ∈ x) : c ∈ l := by
  induction l generalizing x with
  | nil =>
      simp only [splitOnChar, List.mem_singleton] at hx
      subst hx; cases hc
  | cons a rest ih =>
      unfold splitOnChar at hx
      by_cases h : a = sep
      · rw [if_pos h] at hx
        rcases List.mem_cons.mp hx with h1 | h1
        · subst h1; cases hc
        · exact List.mem_cons_of_mem a (ih h1 hc)
      · rw [if_neg h] at hx
        cases hsp : splitOnChar sep rest with
        | nil => exact absurd hsp (splitOnChar_ne_nil sep rest)
        | cons t ts =>
            rw [hsp] at hx
            rcases List.mem_cons.mp hx with h1 | h1
            · subst h1
              rcases List.mem_cons.mp hc with h2 | h2
              · exact h2 ▸ List.mem_cons_self a rest
              · have ht : t ∈ splitOnChar sep rest := by rw [hsp]; exact List.mem_cons_self t ts
                exact List.mem_cons_of_mem a (ih ht h2)
            · have hxs : x ∈ splitOnChar sep rest := by rw [hsp]; exact List.mem_cons_of_mem t h1
              exact List.mem_cons_of_mem a (ih hxs hc)

theorem mem_joinWith {sep : Char} {parts : List (List Char)} {c : Char}
    (h : c ∈ joinWith sep parts) : c = sep ∨ ∃ x ∈ parts, c ∈ x := by
  induction parts with
  | nil => cases h
  | cons x xs ih =>
      cases xs with
      | nil => exact Or.inr ⟨x, List.mem_cons_self x [], h⟩
      | cons y rest =>
          rw [joinWith] at h
          rcases List.mem_append.mp h with h1 | h1
          · exact Or.inr ⟨x, List.mem_cons_self x (y :: rest), h1⟩
          · rcases List.mem_cons.mp h1 with h2 | h2
            · exact Or.inl h2
            · rcases ih h2 with h3 | ⟨z, hz, hcz⟩
              · exact Or.inl h3
              · exact Or.inr ⟨z, List.mem_cons_of_mem x hz, hcz⟩

/-! ### Structure of the `os.path.split` head -/

theorem pySplit_fst_no_trailing {p : List Char} {a : Char}
    (ha : a ∈ (pySplit p).1) (hane : a ≠ '/') :
    (pySplit p).1 ≠ [] ∧ (pySplit p).1.getLast? ≠ some '/' := by
  unfold pySplit at ha ⊢
  by_cases hall : (headWithSep p).all (· == '/')
  · rw [if_pos hall] at ha
    exact absurd (beq_iff_eq.mp (List.all_eq_true.mp hall a ha)) hane
  · rw [if_neg hall] at ha ⊢
    simp only []
    cases hdw : (headWithSep p).reverse.dropWhile (· == '/') with
    | nil => rw [hdw] at ha; cases ha
    | cons c t =>
        have hc : (c == '/') = false := by
          have := List.head?_dropWhile_not (· == '/') (headWithSep p).reverse
          rw [hdw] at this
          simpa using this
        constructor
        · simp
        · rw [List.reverse_cons, List.getLast?_concat]
          intro hx
          have : c = '/' := by injection hx
          rw [this] at hc
          simp at hc

/-! ### Cleaned-token character facts -/

theorem new_filename_base_chars {cfg : RenamerCfg} {p : List Char} {c : Char}
    (h : c ∈ ImageRenamer.new_filename_base cfg p) : c ∉ badChars := by
  rcases mem_joinWith h with hsep | ⟨x, hx, hcx⟩
  · rw [hsep]; decide
  · have hx2 := (List.mem_filter.mp hx).1
    obtain ⟨d0, hd0, hd0x⟩ := List.mem_map.mp hx2
    exact clean_dirname_chars (hd0x ▸ hcx)

theorem new_filename_base_dir_char {cfg : RenamerCfg} {p : List Char}
    (h : ImageRenamer.new_filename_base cfg p ≠ []) :
    ∃ a ∈ ImageRenamer.dir_string p, ImageRenamer.charAllowed a = true := by
  unfold ImageRenamer.new_filename_base at h
  have hcomps : ImageRenamer.cleaned_dir_components cfg p ≠ [] := by
    intro hc; rw [hc] at h; exact h rfl
  obtain ⟨x, hx⟩ := List.exists_mem_of_ne_nil _ hcomps
  have hxf := List.mem_filter.mp hx
  have hxne : x ≠ [] := by
    intro hc
    rw [hc] at hxf
    simpa using hxf.2
  obtain ⟨c, hc⟩ := List.exists_mem_of_ne_nil _ hxne
  obtain ⟨d0, hd0, hd0x⟩ := List.mem_map.mp hxf.1
  rw [← hd0x] at hc
  unfold ImageRenamer.clean_dirname at hc
  obtain ⟨b, hb, -⟩ := List.mem_map.mp hc
  obtain ⟨a, ha, -⟩ := List.mem_map.mp hb
  have haf := List.mem_filter.mp ha
  refine ⟨a, ?_, haf.2⟩
  have hafds : a ∈ ImageRenamer.filename_dir_string cfg p :=
    mem_splitOnChar_subset hd0 haf.1
  unfold ImageRenamer.filename_dir_string at hafds
  by_cases hroot : cfg.include_root
  · rwa [if_pos hroot] at hafds
  · rw [if_neg hroot] at hafds
    exact List.mem_of_mem_drop hafds

/-- A renamed base name `joinedTokens ++ "_" ++ rest` can never match one of
the device-name patterns: the first character of a pattern hit would have to
be an uppercase letter out of `joinedTokens` (impossible: tokens are
lowercased) or the underscore, and for `839A` the fourth character would have
to be the uppercase `A`. -/
theorem matchesReplaceable_join_false {njb rest : List Char}
    (h : ∀ c ∈ njb, c ∉ badChars) :
    ImageRenamer.matchesReplaceable (njb ++ '_' :: rest) = false := by
  have hupper : ∀ c ∈ njb, c ≠ 'I' ∧ c ≠ 'D' ∧ c ≠ 'M' ∧ c ≠ 'A' := by
    intro c hc
    refine ⟨?_, ?_, ?_, ?_⟩ <;> (intro he; exact h c hc (by rw [he]; decide))
  unfold ImageRenamer.matchesReplaceable
  simp only [Bool.or_eq_false_iff]
  refine ⟨⟨⟨?_, ?_⟩, ?_⟩, ?_⟩
  · rw [Bool.eq_false_iff]
    intro hp
    rw [isPrefixOf_iff] at hp
    cases njb with
    | nil =>
        rw [List.nil_append, List.cons_prefix_cons] at hp
        exact absurd hp.1 (by decide)
    | cons c1 njb1 =>
        rw [List.cons_append, List.cons_prefix_cons] at hp
        exact (hupper c1 (List.mem_cons_self c1 njb1)).1 hp.1.symm
  · rw [Bool.eq_false_iff]
    intro hp
    rw [isPrefixOf_iff] at hp
    cases njb with
    | nil =>
        rw [List.nil_append, List.cons_prefix_cons] at hp
        exact absurd hp.1 (by decide)
    | cons c1 njb1 =>
        rw [List.cons_append, List.cons_prefix_cons] at hp
        exact (hupper c1 (List.mem_cons_self c1 njb1)).2.1 hp.1.symm
  · rw [Bool.eq_false_iff]
    intro hp
    rw [isPrefixOf_iff] at hp
    match njb, h, hupper with
    | [], _, _ =>
        rw [List.nil_append, List.cons_prefix_cons] at hp
        exact absurd hp.1 (by decide)
    | [c1], _, _ =>
        simp only [List.cons_append, List.nil_append, List.cons_prefix_cons] at hp
        exact absurd hp.2.1 (by decide)
    | [c1, c2], _, _ =>
        simp only [List.cons_append, List.nil_append, List.cons_prefix_cons] at hp
        exact absurd hp.2.2.1 (by decide)
    | [c1, c2, c3], _, _ =>
        simp only [List.cons_append, List.nil_append, List.cons_prefix_cons] at hp
        exact absurd hp.2.2.2.1 (by decide)
    | c1 :: c2 :: c3 :: c4 :: njb4, _, hupper =>
        simp only [List.cons_append, List.cons_prefix_cons] at hp
        have hc4 := (hupper c4 (by simp)).2.2.2
        exact hc4 hp.2.2.2.1.symm
  · rw [Bool.eq_false_iff]
    intro hp
    rw [isPrefixOf_iff] at hp
    cases njb with
    | nil =>
        rw [List.nil_append, List.cons_prefix_cons] at hp
        exact absurd hp.1 (by decide)
    | cons c1 njb1 =>
        rw [List.cons_append, List.cons_prefix_cons] at hp
        exact (hupper c1 (List.mem_cons_self c1 njb1)).2.2.1 hp.1.symm

/-- `joinedTokens ++ "_"` survives as a prefix of the base-name component of
`os.path.splitext` applied to `joinedTokens ++ "_" ++ z`, because the tokens
contain no dot, so a split can only happen at or after the underscore. -/
theorem njb_prefix_splitext {njb z : List Char} (hdot : '.' ∉ njb) :
    njb ++ ['_'] <+: (pySplitext (njb ++ '_' :: z)).1 := by
  have hBE := pySplitext_append (njb ++ '_' :: z)
  have hassoc : njb ++ '_' :: z = (njb ++ ['_']) ++ z := by simp
  rcases pySplitext_snd (njb ++ '_' :: z) with hE | ⟨t, hE⟩
  · rw [hE, List.append_nil] at hBE
    rw [hBE, hassoc]
    exact List.prefix_append _ _
  · have hpfxB : (pySplitext (njb ++ '_' :: z)).1 <+: njb ++ '_' :: z :=
      ⟨(pySplitext (njb ++ '_' :: z)).2, hBE⟩
    have hpfx1 : njb ++ ['_'] <+: njb ++ '_' :: z := by
      rw [hassoc]; exact List.prefix_append _ _
    by_cases hlen : (njb ++ ['_']).length ≤ (pySplitext (njb ++ '_' :: z)).1.length
    · exact List.prefix_of_prefix_length_le hpfx1 hpfxB hlen
    · exfalso
      have hlen2 : (pySplitext (njb ++ '_' :: z)).1.length ≤ njb.length := by
        have h1 : (njb ++ ['_']).length = njb.length + 1 := by simp
        omega
      have hnjbpfx : njb <+: njb ++ '_' :: z := List.prefix_append _ _
      have hBnjb : (pySplitext (njb ++ '_' :: z)).1 <+: njb :=
        List.prefix_of_prefix_length_le hpfxB hnjbpfx hlen2
      obtain ⟨m, hm⟩ := hBnjb
      have hsplit : m ++ '_' :: z = '.' :: t := by
        have hx : (pySplitext (njb ++ '_' :: z)).1 ++ (m ++ '_' :: z) =
            (pySplitext (njb ++ '_' :: z)).1 ++ '.' :: t := by
          rw [← List.append_assoc, hm, ← hE, hBE]
        exact List.append_cancel_left hx
      cases m with
      | nil =>
          rw [List.nil_append] at hsplit
          have h1 : '_' = '.' := by injection hsplit
          exact absurd h1 (by decide)
      | cons m0 m1 =>
          rw [List.cons_append] at hsplit
          have hm0 : m0 = '.' := by injection hsplit
          have hm0mem : m0 ∈ njb := by
            rw [← hm]
            exact List.mem_append_right _ (List.mem_cons_self m0 m1)
          exact hdot (hm0 ▸ hm0mem)

/-! ### Dry-run invariance of the outcome codes -/

theorem derivedDescription_mk (dir pfx epfx : List Char) (fo dr : Bool) (p : List Char) :
    ImageDescriptionWriter.derivedDescription (WriterCfg.mk dir pfx epfx fo dr) p =
    pfx ++ ' ' :: joinWith ' ' (splitOnChar '/' (p.drop dir.length)) := rfl

theorem writer_code_dry_run (cfg : WriterCfg) (b : Bool) (f : List Char)
    (d : Option (List Char)) :
    (ImageDescriptionWriter.write_directory_structure { cfg with dry_run := b } f d).code =
    (ImageDescriptionWriter.write_directory_structure cfg f d).code := by
  have e1 : ({ cfg with dry_run := b } : WriterCfg).existingPfx = cfg.existingPfx := rfl
  have e2 : ({ cfg with dry_run := b } : WriterCfg).force = cfg.force := rfl
  have e3 : ImageDescriptionWriter.derivedDescription { cfg with dry_run := b } f =
      ImageDescriptionWriter.derivedDescription cfg f := by cases cfg; rfl
  unfold ImageDescriptionWriter.write_directory_structure
  rw [e1, e2, e3]
  repeat' (first | rfl | split)

theorem writer_writes_dry (cfg : WriterCfg) (f : List Char) (d : Option (List Char))
    (hb : cfg.dry_run = true) :
    (ImageDescriptionWriter.write_directory_structure cfg f d).writes = [] := by
  unfold ImageDescriptionWriter.write_directory_structure
  repeat' split
  all_goals simp_all

theorem writer_writes_localized (cfg : WriterCfg) (f : List Char)
    (d : Option (List Char)) (st : Meta) (q g : List Char) (hq : q ≠ f) :
    applyEffects st (ImageDescriptionWriter.write_directory_structure cfg f d).writes q g =
      st q g := by
  unfold ImageDescriptionWriter.write_directory_structure
  repeat' split
  all_goals simp_all [applyEffects, applyEffect]

theorem writerBatchCodes_dry_run (cfg : WriterCfg) (b₁ b₂ : Bool)
    (fs : List (List Char)) : ∀ (st₁ st₂ : Meta), fs.Nodup →
    (∀ f ∈ fs, st₁ f DESC_KEY = st₂ f DESC_KEY) →
    writerBatchCodes { cfg with dry_run := b₁ } st₁ fs =
    writerBatchCodes { cfg with dry_run := b₂ } st₂ fs := by
  induction fs with
  | nil => intro st₁ st₂ _ _; rfl
  | cons f fs ih =>
      intro st₁ st₂ hnd hst
      obtain ⟨hne, hnd'⟩ := List.nodup_cons.mp hnd
      unfold writerBatchCodes
      have hhead := hst f (List.mem_cons_self f fs)
      congr 1
      · rw [hhead, writer_code_dry_run cfg b₁, writer_code_dry_run cfg b₂]
      · apply ih _ _ hnd'
        intro g hg
        have hgf : g ≠ f := fun hc => hne (hc ▸ hg)
        rw [writer_writes_localized _ _ _ _ _ _ hgf,
            writer_writes_localized _ _ _ _ _ _ hgf]
        exact hst g (List.mem_cons_of_mem f hg)

theorem renamer_njb_mk (dir : List Char) (ir dr af : Bool) (p : List Char) :
    ImageRenamer.new_filename_base (RenamerCfg.mk dir ir dr af) p =
    joinWith '_' (((splitOnChar '/' (if ir then ImageRenamer.dir_string p
      else (ImageRenamer.dir_string p).drop dir.length)).map
        ImageRenamer.clean_dirname).filter (fun x => x.isEmpty = false)) := rfl

theorem renamer_code_dry_run (cfg : RenamerCfg) (b : Bool) (f : List Char) :
    (ImageRenamer.write_directory_structure { cfg with dry_run := b } f).code =
    (ImageRenamer.write_directory_structure cfg f).code := by
  have e1 : ({ cfg with dry_run := b } : RenamerCfg).all_files = cfg.all_files := rfl
  have e2 : ImageRenamer.new_filename_base { cfg with dry_run := b } f =
      ImageRenamer.new_filename_base cfg f := by cases cfg; rfl
  unfold ImageRenamer.write_directory_structure
  rw [e1, e2]
  repeat' (first | rfl | split)

theorem derivedDescription_ne_nil (cfg : WriterCfg) (p : List Char) :
    ImageDescriptionWriter.derivedDescription cfg p ≠ [] :=
  List.append_ne_nil_of_right_ne_nil _ (by simp)

/-! ### Components of the renamed path -/

theorem pySplit_snd (l : List Char) : (pySplit l).2 = afterLastSep l := by
  unfold pySplit
  split <;> rfl

theorem dir_string_eq_pySplit (p : List Char) :
    ImageRenamer.dir_string p = (pySplit p).1 := rfl

theorem mem_filename_base_tail {p : List Char} {c : Char}
    (h : c ∈ ImageRenamer.filename_base p) : c ∈ afterLastSep p := by
  have hBE := pySplitext_append (pySplit p).2
  rw [← pySplit_snd p]
  rw [← hBE]
  exact List.mem_append_left _ h

theorem mem_file_ext_cases {p : List Char} {c : Char}
    (h : c ∈ ImageRenamer.file_ext p) :
    ∃ e ∈ afterLastSep p, c = pyLowerChar e := by
  obtain ⟨e, he, hec⟩ := List.mem_map.mp h
  refine ⟨e, ?_, hec.symm⟩
  have hBE := pySplitext_append (pySplit p).2
  rw [← pySplit_snd p, ← hBE]
  exact List.mem_append_right _ he

/-- The file-name part of the renamed path contains no separator. -/
theorem slash_not_mem_new_filename {cfg : RenamerCfg} {p : List Char} :
    '/' ∉ ImageRenamer.new_filename_base cfg p ++ '_' ::
      (ImageRenamer.filename_base p ++ ImageRenamer.file_ext p) := by
  intro hc
  rcases List.mem_append.mp hc with h1 | h1
  · exact new_filename_base_chars h1 (by decide)
  rcases List.mem_cons.mp h1 with h2 | h2
  · exact absurd h2 (by decide)
  rcases List.mem_append.mp h2 with h3 | h3
  · exact afterLastSep_no_slash p (mem_filename_base_tail h3)
  · obtain ⟨e, he, hce⟩ := mem_file_ext_cases h3
    rcases pyLowerChar_self_or_lower e with hid | hlc2
    · exact afterLastSep_no_slash p (by rw [hce.trans hid]; exact he)
    · rw [← hce] at hlc2
      revert hlc2
      decide

theorem njb_depends_on_dir {cfg : RenamerCfg} {p q : List Char}
    (h : ImageRenamer.dir_string p = ImageRenamer.dir_string q) :
    ImageRenamer.new_filename_base cfg p = ImageRenamer.new_filename_base cfg q := by
  unfold ImageRenamer.new_filename_base ImageRenamer.cleaned_dir_components
    ImageRenamer.filename_dir_string
  rw [h]

/-! ### Claim theorems -/

/-- C1: the claim says every single application of a per-file operation
returns one of the codes 0, 1, -1 — in particular on a `.jpg` whose current
description already equals the derived one, and on a non-eligible extension.
The writer's `write_directory_structure` violates this: both named branches
fall off the end of the function without a `return`, so Python returns `None`
(code `none` here), which is none of the three codes.  This contradicts the
function's own docstring (`writer.py:125-128`). -/
theorem c1_writer_fallthrough_none :
    (ImageDescriptionWriter.write_directory_structure cfgLib "/lib/a.jpg".data
        (some "[EXIF writer]  a.jpg".data)).code = none ∧
    (ImageDescriptionWriter.write_directory_structure cfgLib "/lib/b.txt".data none).code = none ∧
    (none : Option Int) ∉ [some 0, some 1, some (-1)] := by decide

/-- C2: after a successful write stores the derived description, re-deriving
with the stored description indeed performs no further `set_field` and takes
the already-written branch, but the branch returns `None` (`code = none`),
not the Skipped code 1 the claim states; the function's docstring promises
codes 0, 1 and -1, so this is a slip in the code. -/
theorem c2_rederive_returns_none :
    ImageDescriptionWriter.write_directory_structure cfgLib "/lib/a.jpg".data none =
      { code := some 0
        writes := [Effect.setField "/lib/a.jpg".data DESC_KEY "[EXIF writer]  a.jpg".data]
        reason := Reason.updated } ∧
    ImageDescriptionWriter.write_directory_structure cfgLib "/lib/a.jpg".data
        (some "[EXIF writer]  a.jpg".data) =
      { code := none, writes := [], reason := Reason.alreadyWritten } := by decide

/-- C4 counterexample: for the empty (but present) description, which does not
contain `existingPrefix`, with `force = false`, write mode does not return
NoOp(foreign-description): the `not desc` disjunct of the guard fires and the
file is written (code 0), refuting the claim as stated. -/
theorem c4_cex_empty_description :
    listContains cfgLib.existingPfx [] = false ∧ cfgLib.force = false ∧
    ImageDescriptionWriter.write_directory_structure cfgLib "/lib/a.jpg".data (some []) =
      { code := some 0
        writes := [Effect.setField "/lib/a.jpg".data DESC_KEY "[EXIF writer]  a.jpg".data]
        reason := Reason.updated } := by decide

/-- C4 amended: for every `.jpg` path whose current description is present and
non-empty, does not contain `existingPrefix`, and with `force = false`, write
mode returns NoOp(foreign-description) — Skipped (code 1) — and performs no
write, regardless of the path. -/
theorem c4_foreign_guard (cfg : WriterCfg) (p d : List Char)
    (hext : extLower p = ".jpg".data) (hd : d ≠ [])
    (hni : listContains cfg.existingPfx d = false) (hf : cfg.force = false) :
    ImageDescriptionWriter.write_directory_structure cfg p (some d) =
      { code := some 1, writes := [], reason := Reason.foreignDescription } := by
  unfold ImageDescriptionWriter.write_directory_structure
  rw [if_pos hext]
  have hfalsy : pyFalsy (some d) = false := by
    simp [pyFalsy, hd]
  have hcond : (pyFalsy (some d) || listContains cfg.existingPfx ((some d).getD []) ||
      cfg.force) = false := by
    rw [hfalsy, show (some d).getD [] = d from rfl, hni, hf]
    rfl
  rw [if_neg (by rw [hcond]; simp)]

theorem c4_foreign_guard_witness :
    (extLower "/lib/a.jpg".data = ".jpg".data ∧ "my note".data ≠ [] ∧
     listContains cfgLib.existingPfx "my note".data = false ∧ cfgLib.force = false) ∧
    ImageDescriptionWriter.write_directory_structure cfgLib "/lib/a.jpg".data
        (some "my note".data) =
      { code := some 1, writes := [], reason := Reason.foreignDescription } :=
  ⟨⟨by decide, by decide, by decide, by decide⟩,
   c4_foreign_guard cfgLib "/lib/a.jpg".data "my note".data
     (by decide) (by decide) (by decide) (by decide)⟩

/-- C5 counterexample: on the spec's scenario the written description is not
the claimed `"[EXIF writer]  Trips/Paris 2023/IMG_001.jpg"`: the code joins
`trimmed_path.split('/')` with spaces, so the separators are converted. -/
theorem c5_cex_separators_not_preserved :
    ImageDescriptionWriter.write_directory_structure cfgLib pathParis none ≠
      { code := some 0
        writes := [Effect.setField pathParis DESC_KEY
          "[EXIF writer]  Trips/Paris 2023/IMG_001.jpg".data]
        reason := Reason.updated } := by decide

/-- C5 amended: the scenario derives and writes
`"[EXIF writer]  Trips Paris 2023 IMG_001.jpg"` — the path separators of the
trimmed path are converted to spaces (the leading separator yields the double
space), not preserved. -/
theorem c5_scenario_description :
    ImageDescriptionWriter.write_directory_structure cfgLib pathParis none =
      { code := some 0
        writes := [Effect.setField pathParis DESC_KEY
          "[EXIF writer]  Trips Paris 2023 IMG_001.jpg".data]
        reason := Reason.updated } := by decide

/-- C6 counterexample: for an eligible file directly in the root with
`includeRoot = false`, the joined token string is empty, and the derivation
does not rename to `"_" + baseName + extension`: `startswith("")` is always
true, so the file is skipped as already renamed and nothing is written. -/
theorem c6_cex_root_file_skipped :
    ImageRenamer.new_filename_base rcfgAll "/r/photo.jpg".data = [] ∧
    ImageRenamer.write_directory_structure rcfgAll "/r/photo.jpg".data =
      { code := some 1, writes := [], reason := Reason.alreadyRenamed } := by decide

/-- C6 amended: whenever the joined token string is empty, the derivation
yields Skipped (code 1) and performs no rename at all — the `"_" + baseName`
rename never happens, because the empty string is a prefix of every base
name. -/
theorem c6_empty_tokens_skip (cfg : RenamerCfg) (p : List Char)
    (h : ImageRenamer.new_filename_base cfg p = []) :
    (ImageRenamer.write_directory_structure cfg p).code = some 1 ∧
    (ImageRenamer.write_directory_structure cfg p).writes = [] := by
  unfold ImageRenamer.write_directory_structure
  by_cases helig : (cfg.all_files ||
      ImageRenamer.matchesReplaceable (ImageRenamer.filename_base p)) = true
  · rw [if_pos helig]
    have hpre : (ImageRenamer.new_filename_base cfg p).isPrefixOf
        (ImageRenamer.filename_base p) = true := by
      rw [h]; exact isPrefixOf_iff.mpr List.nil_prefix
    rw [if_pos hpre]
    exact ⟨rfl, rfl⟩
  · rw [if_neg helig]
    exact ⟨rfl, rfl⟩

theorem c6_empty_tokens_skip_witness :
    ImageRenamer.new_filename_base rcfgAll "/r/photo.jpg".data = [] ∧
    ((ImageRenamer.write_directory_structure rcfgAll "/r/photo.jpg".data).code = some 1 ∧
     (ImageRenamer.write_directory_structure rcfgAll "/r/photo.jpg".data).writes = []) :=
  ⟨by decide, c6_empty_tokens_skip rcfgAll "/r/photo.jpg".data (by decide)⟩

/-- C10: for every configuration and path, the renamer's
`clean_directory_metadata` mutates nothing; on a `.jpg` it returns -1
(the `self.get_description` attribute lookup fails — `ImageRenamer` defines
no such attribute — and the blanket `except` turns the `AttributeError` into
-1), and on any other extension it returns 1. -/
theorem c10_renamer_clean_never_mutates (cfg : RenamerCfg) (p : List Char) :
    (ImageRenamer.clean_directory_metadata cfg p).writes = [] ∧
    (ImageRenamer.clean_directory_metadata cfg p).code =
      (if extLower p = ".jpg".data then some (-1) else some 1) := by
  unfold ImageRenamer.clean_directory_metadata
  by_cases h : extLower p = ".jpg".data
  · rw [if_pos h, if_pos h]
    have hfind : ImageRenamer.instanceAttrNames.find?
        (fun n => n = "get_description".data) = none := by decide
    rw [hfind]
    exact ⟨rfl, rfl⟩
  · rw [if_neg h, if_neg h]
    exact ⟨rfl, rfl⟩

/-- C7: clean is the inverse of write.  For every `.jpg` path whose current
description equals the write-mode derivation (prefix, a space, and the
space-joined trimmed path segments) under any write configuration, if the
cleaning configuration's `existingPrefix` occurs in that description, a live
(non-dry) clean pass sets the `Description` field to the empty string and
returns the Updated outcome (code 0). -/
theorem c7_clean_inverse (cfgW cfgC : WriterCfg) (p : List Char)
    (hext : extLower p = ".jpg".data)
    (hdry : cfgC.dry_run = false)
    (hin : listContains cfgC.existingPfx
      (ImageDescriptionWriter.derivedDescription cfgW p) = true) :
    ImageDescriptionWriter.clean_directory_metadata cfgC p
        (some (ImageDescriptionWriter.derivedDescription cfgW p)) =
      { code := some 0, writes := [Effect.setField p DESC_KEY []]
        reason := Reason.removed } := by
  unfold ImageDescriptionWriter.clean_directory_metadata
  rw [if_pos hext]
  have hfalsy : pyFalsy (some (ImageDescriptionWriter.derivedDescription cfgW p)) = false := by
    simp [pyFalsy, derivedDescription_ne_nil cfgW p]
  have hcond : (!pyFalsy (some (ImageDescriptionWriter.derivedDescription cfgW p)) &&
      listContains cfgC.existingPfx
        ((some (ImageDescriptionWriter.derivedDescription cfgW p)).getD [])) = true := by
    rw [hfalsy, show (some (ImageDescriptionWriter.derivedDescription cfgW p)).getD [] =
      ImageDescriptionWriter.derivedDescription cfgW p from rfl, hin]
    rfl
  rw [if_pos hcond, if_neg (by rw [hdry]; simp)]

theorem c7_clean_inverse_witness :
    (extLower "/lib/a.jpg".data = ".jpg".data ∧ cfgLib.dry_run = false ∧
     listContains cfgLib.existingPfx
       (ImageDescriptionWriter.derivedDescription cfgLib "/lib/a.jpg".data) = true) ∧
    ImageDescriptionWriter.clean_directory_metadata cfgLib "/lib/a.jpg".data
        (some (ImageDescriptionWriter.derivedDescription cfgLib "/lib/a.jpg".data)) =
      { code := some 0, writes := [Effect.setField "/lib/a.jpg".data DESC_KEY []]
        reason := Reason.removed } :=
  ⟨⟨by decide, by decide, by decide⟩,
   c7_clean_inverse cfgLib cfgLib "/lib/a.jpg".data (by decide) (by decide) (by decide)⟩

/-- C9 counterexample: `get_path_components` on `/a/b/c.jpg` yields
`("/a/b", "c", ".jpg")`, and the plain concatenation
`directory ++ baseName ++ extension` is `"/a/bc.jpg"`, which is not a path
equivalent to the input — the separator between directory and base name is
lost. -/
theorem c9_cex_reconstruction_fails :
    ImageRenamer.get_path_components "/a/b/c.jpg".data =
      ("/a/b".data, "c".data, ".jpg".data) ∧
    "/a/b".data ++ "c".data ++ ".jpg".data ≠ "/a/b/c.jpg".data := by decide

/-- C9 amended: with the separator re-inserted —
`directory ++ "/" ++ baseName ++ extension` — the components reconstruct the
input exactly, provided the file-name part is separator-free, its extension is
already lowercase, and the directory part is non-empty without a trailing
separator. -/
theorem c9_reconstruction (d f : List Char) (hd : d ≠ [])
    (hlast : d.getLast? ≠ some '/') (hf : '/' ∉ f)
    (hlow : ((pySplitext f).2).map pyLowerChar = (pySplitext f).2) :
    (ImageRenamer.get_path_components (d ++ '/' :: f)).1 ++ '/' ::
      ((ImageRenamer.get_path_components (d ++ '/' :: f)).2.1 ++
       (ImageRenamer.get_path_components (d ++ '/' :: f)).2.2) = d ++ '/' :: f := by
  unfold ImageRenamer.get_path_components
  rw [pySplit_append hd hlast hf]
  simp only []
  rw [hlow, pySplitext_append]

theorem c9_reconstruction_witness :
    ("/a".data ≠ [] ∧ "/a".data.getLast? ≠ some '/' ∧ '/' ∉ "c.jpg".data ∧
     ((pySplitext "c.jpg".data).2).map pyLowerChar = (pySplitext "c.jpg".data).2) ∧
    (ImageRenamer.get_path_components ("/a".data ++ '/' :: "c.jpg".data)).1 ++ '/' ::
      ((ImageRenamer.get_path_components ("/a".data ++ '/' :: "c.jpg".data)).2.1 ++
       (ImageRenamer.get_path_components ("/a".data ++ '/' :: "c.jpg".data)).2.2) =
      "/a".data ++ '/' :: "c.jpg".data :=
  ⟨⟨by decide, by decide, by decide, by decide⟩,
   c9_reconstruction "/a".data "c.jpg".data (by decide) (by decide) (by decide) (by decide)⟩

/-- C8: dry-run equivalence.  For the writer's write pass (over the
`.jpg`-filtered file list, with the metadata state threaded through the
mutations of the live run) and for the renamer's write pass, running with
`dryRun = true` and with `dryRun = false` from the same initial state yields
identical summary triples (updated, skipped, failed): the flag suppresses the
mutating calls but never changes the branch taken or the code returned.  The
writer needs the enumerated `.jpg` files to be distinct (true of a glob),
since processing the same file twice in a live run would see its own
mutation. -/
theorem c8_dry_run_equivalence (cfg : WriterCfg) (rcfg : RenamerCfg) (st : Meta)
    (files rfiles : List (List Char))
    (hnd : (files.filter (fun f => ALLOWED_EXT.contains (extLower f))).Nodup) :
    writerSummary { cfg with dry_run := true } st files =
      writerSummary { cfg with dry_run := false } st files ∧
    renamerSummary { rcfg with dry_run := true } rfiles =
      renamerSummary { rcfg with dry_run := false } rfiles := by
  constructor
  · unfold writerSummary
    exact congrArg countCodes
      (writerBatchCodes_dry_run cfg true false _ st st hnd (fun _ _ => rfl))
  · unfold renamerSummary
    refine congrArg countCodes ?_
    induction rfiles with
    | nil => rfl
    | cons g gs ih =>
        simp only [List.map_cons]
        rw [renamer_code_dry_run rcfg true g, renamer_code_dry_run rcfg false g, ih]

theorem c8_dry_run_equivalence_witness :
    ((["/lib/a.jpg".data, "/lib/b.jpg".data, "/lib/c.txt".data].filter
        (fun f => ALLOWED_EXT.contains (extLower f))).Nodup) ∧
    (writerSummary { cfgLib with dry_run := true } emptyMeta
        ["/lib/a.jpg".data, "/lib/b.jpg".data, "/lib/c.txt".data] =
      writerSummary { cfgLib with dry_run := false } emptyMeta
        ["/lib/a.jpg".data, "/lib/b.jpg".data, "/lib/c.txt".data] ∧
     renamerSummary { rcfgPatterns with dry_run := true }
        ["/r/a/IMG_1.jpg".data, "/r/x.png".data] =
      renamerSummary { rcfgPatterns with dry_run := false }
        ["/r/a/IMG_1.jpg".data, "/r/x.png".data]) :=
  ⟨by decide,
   c8_dry_run_equivalence cfgLib rcfgPatterns emptyMeta
     ["/lib/a.jpg".data, "/lib/b.jpg".data, "/lib/c.txt".data]
     ["/r/a/IMG_1.jpg".data, "/r/x.png".data] (by decide)⟩

/-- C3 counterexample: with `allFiles = false`, applying the derived rename of
`/r/a/IMG_1.jpg` once and re-running on the resulting path does not skip with
reason already-renamed: the renamed base `a_IMG_1` no longer matches any
device-name pattern, so the eligibility check fires first and the reason is
ineligible-pattern, never reaching the `startswith` check the claim cites. -/
theorem c3_cex_rerun_ineligible :
    ImageRenamer.write_directory_structure rcfgPatterns "/r/a/IMG_1.jpg".data =
      { code := some 0
        writes := [Effect.renameFile "/r/a/IMG_1.jpg".data "/r/a/a_IMG_1.jpg".data]
        reason := Reason.updated } ∧
    ImageRenamer.new_file_path rcfgPatterns "/r/a/IMG_1.jpg".data = "/r/a/a_IMG_1.jpg".data ∧
    ImageRenamer.write_directory_structure rcfgPatterns "/r/a/a_IMG_1.jpg".data =
      { code := some 1, writes := [], reason := Reason.ineligiblePattern } ∧
    Reason.ineligiblePattern ≠ Reason.alreadyRenamed := by decide

/-- C3 amended: if a run renames a file (code 0), re-running the derivation on
the resulting path with the same root and flags always yields Skipped (code 1)
and performs no second rename; the reason is already-renamed (the new base
name starts with the joined tokens) when `allFiles` is set, and
ineligible-pattern otherwise, because the renamed base name cannot match any
device-name pattern. -/
theorem c3_rename_idempotent (cfg : RenamerCfg) (p : List Char)
    (h : (ImageRenamer.write_directory_structure cfg p).code = some 0) :
    ImageRenamer.write_directory_structure cfg (ImageRenamer.new_file_path cfg p) =
      { code := some 1, writes := []
        reason := if cfg.all_files then Reason.alreadyRenamed
                  else Reason.ineligiblePattern } := by
  have hS : (ImageRenamer.new_filename_base cfg p).isPrefixOf
      (ImageRenamer.filename_base p) = false := by
    by_cases hs : (ImageRenamer.new_filename_base cfg p).isPrefixOf
        (ImageRenamer.filename_base p) = true
    · exfalso
      unfold ImageRenamer.write_directory_structure at h
      by_cases he : (cfg.all_files ||
          ImageRenamer.matchesReplaceable (ImageRenamer.filename_base p)) = true
      · rw [if_pos he, if_pos hs] at h
        simp at h
      · rw [if_neg he] at h
        simp at h
    · exact Bool.eq_false_iff.mpr hs
  have hnjb : ImageRenamer.new_filename_base cfg p ≠ [] := by
    intro hc
    rw [hc, isPrefixOf_iff.mpr List.nil_prefix] at hS
    cases hS
  obtain ⟨a, haD, haAl⟩ := new_filename_base_dir_char hnjb
  obtain ⟨hDne, hDlast⟩ :=
    @pySplit_fst_no_trailing p a haD (charAllowed_ne_sep haAl)
  have hfn : '/' ∉ ImageRenamer.new_filename_base cfg p ++ '_' ::
      (ImageRenamer.filename_base p ++ ImageRenamer.file_ext p) :=
    slash_not_mem_new_filename
  have hsplit : pySplit (ImageRenamer.new_file_path cfg p) =
      (ImageRenamer.dir_string p,
       ImageRenamer.new_filename_base cfg p ++ '_' ::
         (ImageRenamer.filename_base p ++ ImageRenamer.file_ext p)) :=
    pySplit_append hDne hDlast hfn
  have hdir : ImageRenamer.dir_string (ImageRenamer.new_file_path cfg p) =
      ImageRenamer.dir_string p := by
    rw [dir_string_eq_pySplit, hsplit]
  have hbase : ImageRenamer.filename_base (ImageRenamer.new_file_path cfg p) =
      (pySplitext (ImageRenamer.new_filename_base cfg p ++ '_' ::
        (ImageRenamer.filename_base p ++ ImageRenamer.file_ext p))).1 := by
    unfold ImageRenamer.filename_base ImageRenamer.get_path_components
    rw [hsplit]
    rfl
  have hnjb2 : ImageRenamer.new_filename_base cfg (ImageRenamer.new_file_path cfg p) =
      ImageRenamer.new_filename_base cfg p := njb_depends_on_dir hdir
  have hdot : '.' ∉ ImageRenamer.new_filename_base cfg p := fun hc =>
    new_filename_base_chars hc (by decide)
  have hpfx : ImageRenamer.new_filename_base cfg p ++ ['_'] <+:
      (pySplitext (ImageRenamer.new_filename_base cfg p ++ '_' ::
        (ImageRenamer.filename_base p ++ ImageRenamer.file_ext p))).1 :=
    njb_prefix_splitext hdot
  have hpre : (ImageRenamer.new_filename_base cfg
        (ImageRenamer.new_file_path cfg p)).isPrefixOf
      (ImageRenamer.filename_base (ImageRenamer.new_file_path cfg p)) = true := by
    rw [hnjb2, hbase]
    exact isPrefixOf_iff.mpr ((List.prefix_append _ _).trans hpfx)
  by_cases haf : cfg.all_files = true
  · unfold ImageRenamer.write_directory_structure
    have helig : (cfg.all_files || ImageRenamer.matchesReplaceable
        (ImageRenamer.filename_base (ImageRenamer.new_file_path cfg p))) = true := by
      rw [haf]; rfl
    rw [if_pos helig, if_pos hpre]
    simp [haf]
  · have hafF : cfg.all_files = false := Bool.eq_false_iff.mpr haf
    obtain ⟨w, hw⟩ := hpfx
    have hw2 : ImageRenamer.filename_base (ImageRenamer.new_file_path cfg p) =
        ImageRenamer.new_filename_base cfg p ++ '_' :: w := by
      rw [hbase, ← hw]
      simp
    have hmr : ImageRenamer.matchesReplaceable
        (ImageRenamer.filename_base (ImageRenamer.new_file_path cfg p)) = false := by
      rw [hw2]
      exact matchesReplaceable_join_false (fun c hc => new_filename_base_chars hc)
    unfold ImageRenamer.write_directory_structure
    have helig : (cfg.all_files || ImageRenamer.matchesReplaceable
        (ImageRenamer.filename_base (ImageRenamer.new_file_path cfg p))) = false := by
      rw [hafF, hmr]
      rfl
    rw [if_neg (by rw [helig]; simp)]
    simp [hafF]

theorem c3_rename_idempotent_witness :
    (ImageRenamer.write_directory_structure rcfgAll "/r/a/IMG_1.jpg".data).code = some 0 ∧
    ImageRenamer.write_directory_structure rcfgAll
        (ImageRenamer.new_file_path rcfgAll "/r/a/IMG_1.jpg".data) =
      { code := some 1, writes := []
        reason := if rcfgAll.all_files then Reason.alreadyRenamed
                  else Reason.ineligiblePattern } :=
  ⟨by decide, c3_rename_idempotent rcfgAll "/r/a/IMG_1.jpg".data (by decide)⟩
